import Mathlib

/-!
Verification of the PageIndex tree-build / navigate / route core
(`comparison/modules/pageindex_rag.py`, `comparison/modules/pageindex_router.py`,
`comparison/modules/ncloud_llm.py`) against its natural-language specification.

The Python code is shallowly embedded: dict-shaped section nodes become a typed
rose tree, in-place mutation becomes pure tree rebuilding, the filesystem cache
becomes an explicit map from path to stored value, and the external
collaborators (the HTTP model call, `fitz` page extraction, and the shared
`pageindex.utils.extract_json` / `json.loads` parsers) become outcome
parameters, since their code is outside this repository.
-/

namespace PageIndex

/-! ### Python string helpers

`str.strip()` truthiness and `str.split()` (no argument) used by
`_get_text_from_pages` and the router's keyword fallback. -/

/-- Python whitespace characters relevant to `str.strip()` / `str.split()`
(ASCII set; the corpus and all inputs in the claims are ASCII-or-Hangul with
ordinary spaces). -/
def pyIsSpace (c : Char) : Bool :=
  c = ' ' || c = '\t' || c = '\n' || c = '\x0d' || c = '\x0b' || c = '\x0c'

/-- Truthiness of `text.strip()` in Python: true iff some character of `text`
is not whitespace. -/
def pyStripTruthy (s : String) : Bool :=
  s.data.any (fun c => !pyIsSpace c)

/-- Worker for `pySplit`: walk the characters, accumulating the current
token reversed; whitespace flushes the token (empty tokens are dropped). -/
def pySplitGo : List Char → List Char → List String
  | [], cur => if cur.isEmpty then [] else [String.mk cur.reverse]
  | c :: cs, cur =>
    if pyIsSpace c then
      (if cur.isEmpty then [] else [String.mk cur.reverse]) ++ pySplitGo cs []
    else pySplitGo cs (c :: cur)

/-- Python `query.split()` with no argument: split on runs of whitespace,
dropping empty pieces. -/
def pySplit (s : String) : List String :=
  pySplitGo s.data []

/-- `needle` begins `hay` (character lists). -/
def pyStartsWith : List Char → List Char → Bool
  | [], _ => true
  | _ :: _, [] => false
  | a :: as, b :: bs => a = b && pyStartsWith as bs

/-- `needle` occurs contiguously inside `hay` (character lists). -/
def pyContains (needle : List Char) : List Char → Bool
  | [] => needle.isEmpty
  | b :: bs => pyStartsWith needle (b :: bs) || pyContains needle bs

/-- Python `needle in hay` on strings: contiguous substring test. -/
def pyInStr (needle hay : String) : Bool :=
  pyContains needle.data hay.data

/-! ### Section nodes

The tree built by `PageIndexRAG.build_tree` is a JSON array of dicts with keys
`title`, `page`, optional `children`, and (after `_add_node_ids`) `node_id`.
We embed it as a typed rose tree; optional keys become `Option` fields
(`none` = key absent). Pages are integers (`Option Int`, `none` = key absent);
claim C5 concerns exactly the fact that the builder never validates them. -/

inductive Node where
  | mk (title : String) (page : Option Int) (summary : Option String)
       (nodeId : Option String) (children : List Node)

def Node.title : Node → String
  | .mk t _ _ _ _ => t

def Node.page : Node → Option Int
  | .mk _ p _ _ _ => p

def Node.summary : Node → Option String
  | .mk _ _ s _ _ => s

def Node.nodeId : Node → Option String
  | .mk _ _ _ i _ => i

def Node.children : Node → List Node
  | .mk _ _ _ _ c => c

/-! ### `_add_node_ids` (address assignment)

```python
def _add_node_ids(self, toc, prefix=""):
    if isinstance(toc, list):
        for i, node in enumerate(toc):
            node_id = f"{prefix}{i+1}" if prefix else str(i+1)
            if isinstance(node, dict):
                node["node_id"] = node_id
                if "children" in node and node["children"]:
                    self._add_node_ids(node["children"], f"{node_id}.")
```

The in-place mutation becomes a pure function; the enumeration index is made
an explicit argument `i` (the Python loop always starts at 0). -/

/-- The id formation `f"{prefix}{i+1}" if prefix else str(i+1)` (`k` is the
already-incremented 1-based position). -/
def catId (pre : String) (k : Nat) : String :=
  if pre = "" then Nat.repr k else pre ++ Nat.repr k

mutual

/-- The loop body of `_add_node_ids` for one node: overwrite `node_id` with
`nid` and recurse into non-empty children with prefix `nid + "."`. -/
def assignNode (nid : String) : Node → Node
  | .mk t p s _ cs =>
    .mk t p s (some nid) (if cs.isEmpty then cs else addNodeIds (nid ++ ".") 0 cs)

def addNodeIds (pre : String) (i : Nat) : List Node → List Node
  | [] => []
  | n :: rest => assignNode (catId pre (i + 1)) n :: addNodeIds pre (i + 1) rest

end

/-! ### `_find_node` (lookup by address)

```python
def _find_node(self, tree, node_id):
    def search(nodes):
        if isinstance(nodes, list):
            for node in nodes:
                result = search(node)
                if result:
                    return result
        elif isinstance(nodes, dict):
            if nodes.get("node_id") == node_id:
                return nodes
            if "children" in nodes:
                return search(nodes["children"])
        return None
    return search(tree)
```
-/

mutual

/-- The dict branch of the inner `search`: exact `node_id` match, else
descend into the children. -/
def findInNode (nodeId : String) : Node → Option Node
  | .mk t p s oid cs =>
    if oid = some nodeId then some (.mk t p s oid cs) else findNode nodeId cs

def findNode (nodeId : String) : List Node → Option Node
  | [] => none
  | n :: rest =>
    match findInNode nodeId n with
    | some r => some r
    | none => findNode nodeId rest

end

/-- Position path of a node inside a tree: `getAtPath ts [i₀, i₁, …]` follows
0-based child indices from the root list. Used only to state claims. -/
def getAtPath : List Node → List Nat → Option Node
  | _, [] => none
  | ts, i :: rest =>
    match ts.get? i with
    | none => none
    | some n => if rest.isEmpty then some n else getAtPath n.children rest

/-! ### `_get_text_from_pages` (page-window extraction)

```python
def _get_text_from_pages(self, page_list, start_idx, end_idx):
    start_idx = max(0, start_idx)
    end_idx = min(len(page_list) - 1, end_idx)
    texts = []
    for i in range(start_idx, end_idx + 1):
        text = page_list[i][0]
        if text.strip():
            texts.append(f"--- Page {i+1} ---\n{text}")
    return "\n\n".join(texts)
```

Pages are modelled as their text (`List String`); the `char_count` component
of each tuple is never read by this function. `page_list[i]` can raise
`IndexError`, so page access is `Option`-valued, making "never reads an index
out of bounds" a provable statement rather than an artifact of total
indexing. -/

/-- The page indices iterated by the `range(start_idx, end_idx + 1)` loop,
after the two clamps. An empty range (start past end) gives `[]`. -/
def windowIndices (len : Nat) (startIdx endIdx : Int) : List Nat :=
  let s := max 0 startIdx
  let e := min ((len : Int) - 1) endIdx
  List.range' s.toNat (e + 1 - s).toNat

/-- The `f"--- Page {i+1} ---\n{text}"` page block (`i` 0-based). -/
def fmtPage (i : Nat) (t : String) : String :=
  "--- Page " ++ Nat.repr (i + 1) ++ " ---\n" ++ t

/-- The loop body: look up each index (`none` = `IndexError`), keep pages
whose stripped text is truthy. -/
def pageLines (pageList : List String) : List Nat → Option (List String)
  | [] => some []
  | i :: rest =>
    match pageList.get? i with
    | none => none
    | some t =>
      match pageLines pageList rest with
      | none => none
      | some acc => some (if pyStripTruthy t then fmtPage i t :: acc else acc)

def getTextFromPages (pageList : List String) (startIdx endIdx : Int) : Option String :=
  (pageLines pageList (windowIndices pageList.length startIdx endIdx)).map
    (String.intercalate "\n\n")

/-- One page's contribution to the excerpt: fetch index `i` and keep it if
its text strips truthy. Reference form used to relate `pageLines` to the
specification-side description. -/
def goodLine (pageList : List String) (i : Nat) : Option String :=
  (pageList.get? i).bind (fun t => if pyStripTruthy t then some (fmtPage i t) else none)

/-- Specification-side description of the excerpt (claim C10): walk all pages
in ascending order, keeping exactly the in-range ones whose text is not
whitespace-only, each rendered with its 1-based page marker. -/
def excerptLines (lo hi : Int) : Nat → List String → List String
  | _, [] => []
  | i, t :: rest =>
    (if lo ≤ (i : Int) ∧ (i : Int) ≤ hi ∧ pyStripTruthy t then [fmtPage i t] else [])
      ++ excerptLines lo hi (i + 1) rest

def excerptSpec (pageList : List String) (startIdx endIdx : Int) : String :=
  String.intercalate "\n\n"
    (excerptLines (max 0 startIdx) (min ((pageList.length : Int) - 1) endIdx) 0 pageList)

/-! ### `build_tree`

```python
def build_tree(self, pdf_path, force_rebuild=False):
    cache_path = self._get_cache_path(pdf_path)
    if not force_rebuild and os.path.exists(cache_path):
        tree = json.load(open(cache_path))
        self.trees[pdf_path] = tree
        return tree
    page_list = self._extract_pages_with_fitz(pdf_path)
    ...
    response = self._llm_call_build(toc_prompt, system_prompt)   # may raise
    try:
        toc = extract_json(response)
        if not toc:
            toc = json.loads(response)
    except:
        toc = [{"title": "Document", "page": 1}]
    self._add_node_ids(toc)
    with open(cache_path, 'w', ...) as f:
        json.dump(toc, f, ...)
    self.trees[pdf_path] = toc
    return toc
```

External collaborators are outcome parameters:
  * `gen` — the single `NCloudLLM.generate` call. Its source (ncloud_llm.py)
    retries up to 3 times and on the last failed attempt re-raises
    (`raise e`), so the terminal outcome is either a response string or a
    propagated exception.
  * `exJson` / `loads` — outcomes of `pageindex.utils.extract_json` (a
    third-party utility) and `json.loads` on the response: either the call
    raised, or it returned a value (`none` = Python `None`, otherwise a list
    of nodes).
The cache directory is a map from path to stored JSON value; `json.dump`
followed by `json.load` is assumed to round-trip. The prompt strings do not
influence any outcome and are elided. -/

/-- Terminal outcome of one `NCloudLLM.generate` call: generated text, or an
exception propagated after `max_retries` attempts. -/
inductive GenOut where
  | ok (response : String)
  | exn

/-- Outcome of a Python parsing call: an exception, or a returned value where
`ret none` is Python `None` and `ret (some l)` is a JSON array of nodes. -/
inductive ParseOut where
  | raised
  | ret (v : Option (List Node))

/-- Python truthiness of a parse result (`None` and `[]` are falsy). -/
def pyFalsy : Option (List Node) → Bool
  | none => true
  | some l => l.isEmpty

/-- The synthetic fallback structure `[{"title": "Document", "page": 1}]`. -/
def fallbackToc : List Node := [.mk "Document" (some 1) none none []]

/-- The `try: toc = extract_json(response); if not toc: toc = json.loads(response)
except: toc = [{"title": "Document", "page": 1}]` block. -/
def parseToc (exOut ldOut : ParseOut) : Option (List Node) :=
  match exOut with
  | .raised => some fallbackToc
  | .ret v =>
    if pyFalsy v then
      match ldOut with
      | .raised => some fallbackToc
      | .ret w => w
    else v

/-- The tree cache directory: path → stored JSON value (`none` = no file). -/
def Cache : Type := String → Option (Option (List Node))

def buildTree (cache : Cache) (cachePath : String) (forceRebuild : Bool)
    (gen : GenOut) (exJson loads : String → ParseOut) :
    Except Unit (Option (List Node) × Cache) :=
  match cache cachePath, forceRebuild with
  | some cached, false => .ok (cached, cache)
  | _, _ =>
    match gen with
    | .exn => .error ()
    | .ok response =>
      let toc := parseToc (exJson response) (loads response)
      let toc' := toc.map (addNodeIds "" 0)
      .ok (toc', fun p => if p = cachePath then some toc' else cache p)

/-! ### `PageIndexRouter.route`

```python
try:
    response = self.llm.generate(messages, thinking_effort="medium")
    ... string cleanup, bracket location, json.loads / comma-split ...
    valid_docs = []
    for doc in selected_docs:
        if doc in documents:
            valid_docs.append(doc); continue
        for original_doc in documents:
            if doc in original_doc or original_doc in doc:
                valid_docs.append(original_doc); break
    valid_docs = list(set(valid_docs))
    if not valid_docs:
        raise ValueError("No valid documents found after parsing")
        print("... Fallback to keyword match.")      # unreachable
        keywords = query.split()
        scores = [(doc, sum(1 for k in keywords if k in doc)) for doc in documents]
        scores.sort(key=lambda x: x[1], reverse=True)
        valid_docs = [x[0] for x in scores[:top_k]]
    return valid_docs[:top_k]
except Exception as e:
    return documents[:top_k]
```

The LLM call and the response-to-`selected_docs` parsing are abstracted into
the `selectedDocs` parameter (the claims quantify over the validation's
input). -/

/-- The validation loop over `selected_docs`: exact list membership first,
else the first candidate related by substring in either direction. -/
def validateDocs (selectedDocs documents : List String) : List String :=
  selectedDocs.foldl
    (fun acc doc =>
      if doc ∈ documents then acc ++ [doc]
      else
        match documents.find? (fun od => pyInStr doc od || pyInStr od doc) with
        | some od => acc ++ [od]
        | none => acc)
    []

/-- `list(set(valid_docs))`. Python's set iteration order is unspecified;
modelled as first-occurrence deduplication — every theorem below depends only
on emptiness, on which the two agree. -/
def pySetDedup (l : List String) : List String := l.eraseDups

/-- Insert `x` after every element whose key is at least `key x` (stable
descending insertion step). -/
def insertDesc {α : Type} (key : α → Nat) (x : α) : List α → List α
  | [] => [x]
  | y :: ys => if key y < key x then x :: y :: ys else y :: insertDesc key x ys

/-- Stable descending sort by key: the model of Python's stable
`list.sort(key=..., reverse=True)` (equal keys keep their original order). -/
def stableSortDesc {α : Type} (key : α → Nat) (l : List α) : List α :=
  l.foldl (fun acc x => insertDesc key x acc) []

/-- The unreachable keyword-overlap fallback (router lines 108–115): score
each candidate by how many whitespace-split query tokens it contains, stable
descending sort, first `top_k`. -/
def keywordFallback (query : String) (documents : List String) (topK : Nat) : List String :=
  let keywords := pySplit query
  let scores := documents.map (fun doc => (doc, (keywords.filter (fun k => pyInStr k doc)).length))
  ((stableSortDesc (fun x => x.2) scores).take topK).map (fun x => x.1)

/-- `route` from the point where `selected_docs` has been parsed. When
validation yields nothing the `raise ValueError` lands in the
`except Exception` handler, which returns `documents[:top_k]`. -/
def route (documents : List String) (topK : Nat) (selectedDocs : List String) : List String :=
  let valid := pySetDedup (validateDocs selectedDocs documents)
  if valid.isEmpty then documents.take topK
  else valid.take topK

/-! ### `PageIndexRAG.search`

```python
for node_info in relevant_nodes[:top_k]:
    node = self._find_node(tree, node_info.get("node_id", "1"))
    if node:
        start_page = node.get("page", 1) - 1
        end_page = min(start_page + 2, len(page_list) - 1)
        text = self._get_text_from_pages(page_list, start_page, end_page)
        results.append({
            "node_id": node_info.get("node_id", ""),
            "title": node.get("title", ""),
            "summary": node.get("summary", ""),
            "text": text[:2000],
            "page": node.get("page", 1),
            "relevance": node_info.get("relevance", ""),
            "metadata": {"source": os.path.basename(pdf_path),
                         "page": node.get("page", 1)}})
return results
```

The parsed navigation response (`relevant_nodes`) is the `nav` parameter;
each entry is the dict's two consulted keys. -/

structure NavEntry where
  nodeId : Option String
  relevance : Option String

structure SearchResult where
  nodeId : String
  title : String
  summary : String
  text : String
  page : Int
  relevance : String
  source : String
  metaPage : Int
deriving DecidableEq

def mkSearchResult (src : String) (e : NavEntry) (node : Node) (text : String) : SearchResult :=
  { nodeId := e.nodeId.getD ""
    title := node.title
    summary := node.summary.getD ""
    text := text.take 2000
    page := node.page.getD 1
    relevance := e.relevance.getD ""
    source := src
    metaPage := node.page.getD 1 }

/-- The result-collection loop (already restricted to `relevant_nodes[:top_k]`
by the caller); `none` = an uncaught `IndexError` inside page extraction. -/
def searchLoop (tree : List Node) (pageList : List String) (src : String) :
    List NavEntry → Option (List SearchResult)
  | [] => some []
  | e :: rest =>
    match findNode (e.nodeId.getD "1") tree with
    | none => searchLoop tree pageList src rest
    | some node =>
      let startPage : Int := node.page.getD 1 - 1
      let endPage : Int := min (startPage + 2) ((pageList.length : Int) - 1)
      match getTextFromPages pageList startPage endPage with
      | none => none
      | some text =>
        (searchLoop tree pageList src rest).map (fun acc => mkSearchResult src e node text :: acc)

/-- The navigation step of `search` after the model response has been parsed
into `nav`. -/
def searchCore (tree : List Node) (nav : List NavEntry) (topK : Nat)
    (pageList : List String) (src : String) : Option (List SearchResult) :=
  searchLoop tree pageList src (nav.take topK)

/-- Total (specification-side) form of one search result, with the excerpt
given by `excerptSpec`. -/
def mkResultSpec (pageList : List String) (src : String) (e : NavEntry) (node : Node) :
    SearchResult :=
  mkSearchResult src e node
    (excerptSpec pageList (node.page.getD 1 - 1)
      (min (node.page.getD 1 - 1 + 2) ((pageList.length : Int) - 1)))

/-! ### Decimal numerals and dotted addresses

Reference forms used to reason about `Nat.repr` (which `str(i+1)` embeds to)
and about the dotted address strings produced by `addNodeIds`. -/

/-- Decimal digit characters of `n`, most significant first: the reference
form of `Nat.toDigitsCore 10`. -/
def decChars (n : Nat) : List Char :=
  if n < 10 then [Nat.digitChar n]
  else decChars (n / 10) ++ [Nat.digitChar (n % 10)]
termination_by n
decreasing_by exact Nat.div_lt_self (by omega) (by omega)

/-- Decode a decimal digit string back to its value. -/
def decVal (l : List Char) : Nat :=
  l.foldl (fun a c => 10 * a + (c.toNat - 48)) 0

/-- Dotted rendering of a path of 1-based positions, e.g. `[2,1,3] ↦ "2.1.3"`. -/
def dotted : List Nat → String
  | [] => ""
  | [k] => Nat.repr k
  | k :: rest => Nat.repr k ++ "." ++ dotted rest

/-- The address `addNodeIds pre i` gives to the node at 0-based position path
`p`, mirroring the recursion of `addNodeIds`. -/
def addrOf (pre : String) (i : Nat) : List Nat → String
  | [] => pre
  | [j] => catId pre (i + j + 1)
  | j :: rest => addrOf (catId pre (i + j + 1) ++ ".") 0 rest

/-- 1-based form of a 0-based position path, with the leading enumeration
offset `i` added to its head. -/
def shiftPath (i : Nat) : List Nat → List Nat
  | [] => []
  | j :: rest => (i + j + 1) :: rest.map (· + 1)

/-! ## Theorems -/

/-! ### Decimal numeral facts -/

theorem toDigitsCore_eq_decChars :
    ∀ (fuel n : Nat) (ds : List Char), n < fuel →
      Nat.toDigitsCore 10 fuel n ds = decChars n ++ ds := by
  intro fuel
  induction fuel with
  | zero => intro n ds h; omega
  | succ fuel ih =>
    intro n ds h
    rw [Nat.toDigitsCore]
    by_cases h10 : n / 10 = 0
    · have hn : n < 10 := by omega
      rw [decChars]
      simp [h10, hn, Nat.mod_eq_of_lt hn]
    · have hn : ¬ n < 10 := by omega
      rw [decChars]
      simp only [h10, if_neg hn, if_neg h10]
      rw [ih (n / 10) _ (by omega)]
      simp

theorem repr_eq_decChars (n : Nat) : Nat.repr n = (decChars n).asString := by
  show (Nat.toDigits 10 n).asString = _
  rw [Nat.toDigits, toDigitsCore_eq_decChars (n + 1) n [] (Nat.lt_succ_self n),
    List.append_nil]

theorem data_repr (n : Nat) : (Nat.repr n).data = decChars n := by
  rw [repr_eq_decChars]; rfl

theorem digitChar_toNat_eq : ∀ m, m < 10 → (Nat.digitChar m).toNat = 48 + m := by decide

theorem digitChar_ne_dot : ∀ m, m < 10 → Nat.digitChar m ≠ '.' := by decide

theorem decChars_are_digits (n : Nat) :
    ∀ c ∈ decChars n, ∃ m, m < 10 ∧ c = Nat.digitChar m := by
  induction n using Nat.strong_induction_on with
  | _ n ih =>
    rw [decChars]
    by_cases h : n < 10
    · simp only [if_pos h, List.mem_singleton]
      intro c hc
      exact ⟨n, h, hc⟩
    · simp only [if_neg h]
      intro c hc
      rcases List.mem_append.mp hc with h1 | h2
      · exact ih (n / 10) (Nat.div_lt_self (by omega) (by omega)) c h1
      · exact ⟨n % 10, Nat.mod_lt _ (by omega), List.mem_singleton.mp h2⟩

theorem dot_not_mem_decChars (n : Nat) : '.' ∉ decChars n := by
  intro hmem
  obtain ⟨m, hm, he⟩ := decChars_are_digits n '.' hmem
  exact digitChar_ne_dot m hm he.symm

theorem dot_not_mem_repr (n : Nat) : '.' ∉ (Nat.repr n).data := by
  rw [data_repr]; exact dot_not_mem_decChars n

theorem decVal_append_digit (l : List Char) (c : Char) :
    decVal (l ++ [c]) = 10 * decVal l + (c.toNat - 48) := by
  simp [decVal, List.foldl_append]

theorem decVal_decChars (n : Nat) : decVal (decChars n) = n := by
  induction n using Nat.strong_induction_on with
  | _ n ih =>
    rw [decChars]
    by_cases h : n < 10
    · rw [if_pos h]
      simp [decVal, digitChar_toNat_eq n h]
    · rw [if_neg h, decVal_append_digit,
        ih (n / 10) (Nat.div_lt_self (by omega) (by omega)),
        digitChar_toNat_eq (n % 10) (Nat.mod_lt _ (by omega))]
      omega

theorem repr_inj {a b : Nat} (h : Nat.repr a = Nat.repr b) : a = b := by
  rw [repr_eq_decChars, repr_eq_decChars, List.asString_inj] at h
  have := congrArg decVal h
  rwa [decVal_decChars, decVal_decChars] at this

theorem repr_ne_empty (n : Nat) : Nat.repr n ≠ "" := by
  intro h
  have := congrArg String.data h
  rw [data_repr] at this
  rw [decChars] at this
  by_cases hn : n < 10 <;> simp [hn] at this

/-! ### Dotted addresses are injective -/

theorem string_data_inj {s t : String} (h : s.data = t.data) : s = t := by
  cases s; cases t; exact congrArg String.mk h

theorem split_at_dot :
    ∀ {sa sb r1 r2 : List Char}, '.' ∉ sa → '.' ∉ sb →
      sa ++ '.' :: r1 = sb ++ '.' :: r2 → sa = sb ∧ r1 = r2 := by
  intro sa
  induction sa with
  | nil =>
    intro sb r1 r2 _ hb h
    cases sb with
    | nil => simpa using h
    | cons b bs =>
      simp only [List.nil_append, List.cons_append, List.cons.injEq] at h
      exact absurd (show ('.' : Char) ∈ b :: bs by
        rw [← h.1]; exact List.mem_cons_self _ _) hb
  | cons a as ih =>
    intro sb r1 r2 ha hb h
    cases sb with
    | nil =>
      simp only [List.nil_append, List.cons_append, List.cons.injEq] at h
      exact absurd (show ('.' : Char) ∈ a :: as by
        rw [h.1]; exact List.mem_cons_self _ _) ha
    | cons b bs =>
      simp only [List.cons_append, List.cons.injEq] at h
      obtain ⟨rfl, h2⟩ := h
      have := ih (fun hm => ha (List.mem_cons_of_mem _ hm))
        (fun hm => hb (List.mem_cons_of_mem _ hm)) h2
      exact ⟨by rw [this.1], this.2⟩

theorem dotted_single (k : Nat) : dotted [k] = Nat.repr k := rfl

theorem dotted_cons (k a : Nat) (b : List Nat) :
    dotted (k :: a :: b) = Nat.repr k ++ "." ++ dotted (a :: b) := rfl

theorem data_dotted_cons (k a : Nat) (b : List Nat) :
    (dotted (k :: a :: b)).data = (Nat.repr k).data ++ '.' :: (dotted (a :: b)).data := by
  rw [dotted_cons]
  simp [String.data_append]

theorem dotted_inj : ∀ {p q : List Nat}, p ≠ [] → q ≠ [] → dotted p = dotted q → p = q := by
  intro p
  induction p with
  | nil => intro q hp _ _; exact absurd rfl hp
  | cons k rest ih =>
    intro q _ hq h
    cases q with
    | nil => exact absurd rfl hq
    | cons k' rest' =>
      cases rest with
      | nil =>
        cases rest' with
        | nil =>
          have hk : k = k' := repr_inj h
          rw [hk]
        | cons a' b' =>
          have hd := congrArg String.data h
          rw [data_dotted_cons] at hd
          rw [dotted_single] at hd
          exact absurd (hd ▸ List.mem_append_right _ (List.mem_cons_self _ _))
            (dot_not_mem_repr k)
      | cons a b =>
        cases rest' with
        | nil =>
          have hd := congrArg String.data h.symm
          rw [data_dotted_cons] at hd
          rw [dotted_single] at hd
          exact absurd (hd ▸ List.mem_append_right _ (List.mem_cons_self _ _))
            (dot_not_mem_repr k')
        | cons a' b' =>
          have hd := congrArg String.data h
          rw [data_dotted_cons, data_dotted_cons] at hd
          obtain ⟨h1, h2⟩ :=
            split_at_dot (dot_not_mem_repr k) (dot_not_mem_repr k') hd
          have hk : k = k' := repr_inj (string_data_inj h1)
          have hr : (a :: b) = (a' :: b') :=
            ih (by simp) (by simp) (string_data_inj h2)
          rw [hk, hr]

theorem shiftPath_ne_nil {i : Nat} {p : List Nat} (hp : p ≠ []) : shiftPath i p ≠ [] := by
  cases p with
  | nil => exact absurd rfl hp
  | cons j rest => simp [shiftPath]

theorem shiftPath_inj {i : Nat} {p q : List Nat} (h : shiftPath i p = shiftPath i q) :
    p = q := by
  cases p with
  | nil => cases q with
    | nil => rfl
    | cons j' r' => simp [shiftPath] at h
  | cons j r =>
    cases q with
    | nil => simp [shiftPath] at h
    | cons j' r' =>
      simp only [shiftPath, List.cons.injEq] at h
      obtain ⟨h1, h2⟩ := h
      have hj : j = j' := by omega
      have hr : r = r' := by
        have hinj : Function.Injective (fun x : Nat => x + 1) := fun a b hab => by
          have hab' : a + 1 = b + 1 := hab
          omega
        exact List.map_injective_iff.mpr hinj h2
      rw [hj, hr]

theorem catId_eq (pre : String) (k : Nat) : catId pre k = pre ++ Nat.repr k := by
  rw [catId]
  by_cases h : pre = ""
  · rw [if_pos h, h]
    exact string_data_inj (by simp)
  · rw [if_neg h]

theorem addrOf_eq :
    ∀ (p : List Nat) (pre : String) (i : Nat), p ≠ [] →
      addrOf pre i p = pre ++ dotted (shiftPath i p) := by
  intro p
  induction p with
  | nil => intro pre i h; exact absurd rfl h
  | cons j rest ih =>
    intro pre i _
    cases rest with
    | nil =>
      show catId pre (i + j + 1) = _
      rw [catId_eq]
      rfl
    | cons a b =>
      show addrOf (catId pre (i + j + 1) ++ ".") 0 (a :: b) = _
      rw [ih _ _ (by simp)]
      have hsh : shiftPath 0 (a :: b) = (a + 1) :: b.map (· + 1) := by
        simp [shiftPath]
      have hsh2 : shiftPath i (j :: a :: b) = (i + j + 1) :: (a + 1) :: b.map (· + 1) := by
        simp [shiftPath]
      rw [hsh, hsh2, dotted_cons, catId_eq]
      apply string_data_inj
      simp [String.data_append]

theorem addrOf_inj (pre : String) (i : Nat) {p q : List Nat} (hp : p ≠ []) (hq : q ≠ [])
    (h : addrOf pre i p = addrOf pre i q) : p = q := by
  rw [addrOf_eq _ _ _ hp, addrOf_eq _ _ _ hq] at h
  have hd := congrArg String.data h
  simp only [String.data_append] at hd
  have h2 : dotted (shiftPath i p) = dotted (shiftPath i q) :=
    string_data_inj (List.append_cancel_left hd)
  exact shiftPath_inj (dotted_inj (shiftPath_ne_nil hp) (shiftPath_ne_nil hq) h2)

theorem addrOf_shift (pre : String) (i j : Nat) (rest : List Nat) :
    addrOf pre i ((j + 1) :: rest) = addrOf pre (i + 1) (j :: rest) := by
  cases rest with
  | nil =>
    show catId pre (i + (j + 1) + 1) = catId pre (i + 1 + j + 1)
    have : i + (j + 1) + 1 = i + 1 + j + 1 := by omega
    rw [this]
  | cons a b =>
    show addrOf (catId pre (i + (j + 1) + 1) ++ ".") 0 (a :: b)
        = addrOf (catId pre (i + 1 + j + 1) ++ ".") 0 (a :: b)
    have : i + (j + 1) + 1 = i + 1 + j + 1 := by omega
    rw [this]

theorem append_dot_ne_empty (s : String) : s ++ "." ≠ "" := by
  intro h
  have := congrArg String.data h
  simp [String.data_append] at this

/-! ### `addNodeIds` structure lemmas -/

theorem addNodeIds_nil (pre : String) (i : Nat) : addNodeIds pre i [] = [] := by
  rw [addNodeIds]

theorem addNodeIds_cons (pre : String) (i : Nat) (t : String) (p : Option Int)
    (s : Option String) (oid : Option String) (cs rest : List Node) :
    addNodeIds pre i (.mk t p s oid cs :: rest) =
      .mk t p s (some (catId pre (i + 1)))
        (if cs.isEmpty then cs else addNodeIds (catId pre (i + 1) ++ ".") 0 cs)
        :: addNodeIds pre (i + 1) rest := rfl

theorem addNodeIds_eq_nil_iff (pre : String) (i : Nat) (l : List Node) :
    addNodeIds pre i l = [] ↔ l = [] := by
  cases l with
  | nil => simp [addNodeIds_nil]
  | cons x rest => cases x; rw [addNodeIds_cons]; simp

theorem addNodeIds_isEmpty (pre : String) (i : Nat) (l : List Node) :
    (addNodeIds pre i l).isEmpty = l.isEmpty := by
  cases l with
  | nil => simp [addNodeIds_nil]
  | cons x rest => cases x; rw [addNodeIds_cons]; simp

theorem addNodeIds_get? :
    ∀ (l : List Node) (pre : String) (i j : Nat),
      (addNodeIds pre i l).get? j =
        (l.get? j).map (fun m =>
          Node.mk m.title m.page m.summary (some (catId pre (i + j + 1)))
            (if m.children.isEmpty then m.children
             else addNodeIds (catId pre (i + j + 1) ++ ".") 0 m.children)) := by
  intro l
  induction l with
  | nil => intro pre i j; simp [addNodeIds_nil]
  | cons x rest ih =>
    intro pre i j
    cases x with
    | mk t p s oid cs =>
      rw [addNodeIds_cons]
      cases j with
      | zero =>
        simp [Node.title, Node.page, Node.summary, Node.children]
      | succ j =>
        simp only [List.get?_cons_succ]
        rw [ih pre (i + 1) j]
        have : i + 1 + j + 1 = i + (j + 1) + 1 := by omega
        rw [this]

theorem ite_isEmpty_cons {β : Type v} {α : Sort u} (a : β) (l : List β) (x y : α) :
    (if (a :: l).isEmpty = true then x else y) = y := by
  rw [if_neg]
  simp

theorem ite_isEmpty_nil {β : Type v} {α : Sort u} (x y : α) :
    (if ([] : List β).isEmpty = true then x else y) = x := by
  rw [if_pos]
  rfl

/-- Every node reached by a position path in an assigned tree carries the
address `addrOf`, and its `j`-th child carries that address extended by a
dot and the child's 1-based position. -/
theorem getAtPath_assigned :
    ∀ (N : Nat) (l : List Node), sizeOf l ≤ N →
    ∀ (pre : String) (i : Nat) (p : List Nat) (n : Node),
      getAtPath (addNodeIds pre i l) p = some n →
      n.nodeId = some (addrOf pre i p) ∧
      (∀ j c, n.children.get? j = some c →
        c.nodeId = some (addrOf pre i p ++ "." ++ Nat.repr (j + 1))) := by
  intro N
  induction N with
  | zero =>
    intro l hl
    cases l with
    | nil =>
      intro pre i p n h
      rw [addNodeIds_nil] at h
      cases p with
      | nil => simp [getAtPath] at h
      | cons j rest =>
        rw [getAtPath] at h
        simp at h
    | cons x rest =>
      simp only [List.cons.sizeOf_spec] at hl
      omega
  | succ N ih =>
    intro l hl pre i p n h
    cases p with
    | nil => simp [getAtPath] at h
    | cons j rest =>
      rw [getAtPath] at h
      rw [addNodeIds_get?] at h
      cases hg : l.get? j with
      | none => rw [hg] at h; simp at h
      | some m =>
        rw [hg] at h
        have hm : sizeOf m < sizeOf l := List.sizeOf_lt_of_mem (List.get?_mem hg)
        cases m with
        | mk mt mp ms moid mcs =>
          simp only [Option.map_some', Node.title, Node.page, Node.summary,
            Node.children] at h
          have hmcs : sizeOf mcs ≤ N := by
            simp only [Node.mk.sizeOf_spec] at hm
            omega
          cases rest with
          | nil =>
            rw [ite_isEmpty_nil] at h
            have hn := Option.some.inj h
            subst hn
            refine ⟨rfl, ?_⟩
            intro j' c hc
            simp only [Node.children] at hc
            cases hmc : mcs with
            | nil =>
              subst hmc
              simp at hc
            | cons c0 cl =>
              subst hmc
              rw [ite_isEmpty_cons] at hc
              rw [addNodeIds_get?] at hc
              cases hg2 : (c0 :: cl).get? j' with
              | none => rw [hg2] at hc; simp at hc
              | some c1 =>
                rw [hg2] at hc
                simp only [Option.map_some'] at hc
                have hceq := Option.some.inj hc
                rw [← hceq]
                simp only [Node.nodeId]
                rw [catId_eq]
                have haddr : addrOf pre i [j] = catId pre (i + j + 1) := rfl
                rw [haddr]
                have hz : (0 : Nat) + j' + 1 = j' + 1 := by omega
                rw [hz]
          | cons r0 r1 =>
            rw [ite_isEmpty_cons] at h
            cases hmc : mcs with
            | nil =>
              subst hmc
              rw [ite_isEmpty_nil] at h
              exact Option.noConfusion h
            | cons c0 cl =>
              subst hmc
              rw [ite_isEmpty_cons] at h
              have hrec := ih (c0 :: cl) hmcs (catId pre (i + j + 1) ++ ".") 0
                (r0 :: r1) n h
              have haddr : addrOf pre i (j :: r0 :: r1)
                  = addrOf (catId pre (i + j + 1) ++ ".") 0 (r0 :: r1) := rfl
              rw [haddr]
              exact hrec

/-! ### `findNode` lemmas -/

theorem findNode_nil (target : String) : findNode target [] = none := by
  rw [findNode]

theorem findNode_cons (target : String) (x : Node) (rest : List Node) :
    findNode target (x :: rest) =
      match (if x.nodeId = some target then some x else findNode target x.children) with
      | some r => some r
      | none => findNode target rest := by
  cases x with
  | mk t p s' oid cs => rfl

theorem sizeOf_children_lt (n : Node) : sizeOf n.children < sizeOf n := by
  cases n with
  | mk t p s i c =>
    simp only [Node.children, Node.mk.sizeOf_spec]
    omega

theorem getAtPath_cons_succ (x : Node) (rest : List Node) (j : Nat) (qr : List Nat) :
    getAtPath (x :: rest) ((j + 1) :: qr) = getAtPath rest (j :: qr) := rfl

/-- Soundness of the depth-first lookup: a found node is a node of the tree
(at some position path) carrying the looked-up id. -/
theorem findNode_sound :
    ∀ (N : Nat) (L : List Node), sizeOf L ≤ N → ∀ (target : String) (n : Node),
      findNode target L = some n →
      ∃ q, q ≠ [] ∧ getAtPath L q = some n ∧ n.nodeId = some target := by
  intro N
  induction N with
  | zero =>
    intro L hL
    cases L with
    | nil =>
      intro target n h
      rw [findNode_nil] at h
      exact Option.noConfusion h
    | cons x rest =>
      simp only [List.cons.sizeOf_spec] at hL
      omega
  | succ N ih =>
    intro L hL target n h
    cases L with
    | nil =>
      rw [findNode_nil] at h
      exact Option.noConfusion h
    | cons x rest =>
      rw [findNode_cons] at h
      by_cases hid : x.nodeId = some target
      · rw [if_pos hid] at h
        have hxn : some x = some n := h
        have hxn' := Option.some.inj hxn
        refine ⟨[0], by simp, ?_, ?_⟩
        · show (if ([] : List Nat).isEmpty then some x else getAtPath x.children []) = some n
          rw [ite_isEmpty_nil, hxn']
        · rw [← hxn']
          exact hid
      · rw [if_neg hid] at h
        cases hf : findNode target x.children with
        | some r =>
          rw [hf] at h
          have hrn : some r = some n := h
          have hrn' := Option.some.inj hrn
          have hsz : sizeOf x.children ≤ N := by
            have h1 : sizeOf x.children < sizeOf x := sizeOf_children_lt x
            simp only [List.cons.sizeOf_spec] at hL
            omega
          obtain ⟨q, hq, hget, hid2⟩ := ih x.children hsz target r hf
          cases q with
          | nil => exact absurd rfl hq
          | cons q0 qr =>
            refine ⟨0 :: q0 :: qr, by simp, ?_, by rw [← hrn']; exact hid2⟩
            show getAtPath x.children (q0 :: qr) = some n
            rw [hget, hrn']
        | none =>
          rw [hf] at h
          have hrest : findNode target rest = some n := h
          have hsz : sizeOf rest ≤ N := by
            simp only [List.cons.sizeOf_spec] at hL
            omega
          obtain ⟨q, hq, hget, hid2⟩ := ih rest hsz target n hrest
          cases q with
          | nil => exact absurd rfl hq
          | cons q0 qr =>
            refine ⟨(q0 + 1) :: qr, by simp, ?_, hid2⟩
            rw [getAtPath_cons_succ]
            exact hget

theorem str_ne_dot_ext (s d : String) : s ≠ (s ++ ".") ++ d := by
  intro h
  have := congrArg (fun x : String => x.data.length) h
  simp [String.data_append] at this

/-- `_find_node`, applied to an assigned tree and the assigned address of the
node at position path `p`, returns exactly that node. -/
theorem findNode_assigned :
    ∀ (N : Nat) (l : List Node), sizeOf l ≤ N →
    ∀ (pre : String) (i : Nat) (p : List Nat) (n : Node),
      getAtPath (addNodeIds pre i l) p = some n →
      findNode (addrOf pre i p) (addNodeIds pre i l) = some n := by
  intro N
  induction N with
  | zero =>
    intro l hl
    cases l with
    | nil =>
      intro pre i p n h
      rw [addNodeIds_nil] at h
      cases p with
      | nil => exact Option.noConfusion h
      | cons j rest => exact Option.noConfusion h
    | cons x rest =>
      simp only [List.cons.sizeOf_spec] at hl
      omega
  | succ N ih =>
    intro l hl pre i p n h
    cases l with
    | nil =>
      rw [addNodeIds_nil] at h
      cases p with
      | nil => exact Option.noConfusion h
      | cons j rest => exact Option.noConfusion h
    | cons x xs =>
      cases x with
      | mk xt xp xs' xoid xcs =>
        rw [addNodeIds_cons] at h ⊢
        cases p with
        | nil => exact Option.noConfusion h
        | cons j rest =>
          have hszxs : sizeOf xs ≤ N := by
            simp only [List.cons.sizeOf_spec] at hl
            omega
          have hszxcs : sizeOf xcs ≤ N := by
            simp only [List.cons.sizeOf_spec, Node.mk.sizeOf_spec] at hl
            omega
          cases j with
          | zero =>
            cases rest with
            | nil =>
              -- the path names the head node itself
              have hx : some (Node.mk xt xp xs' (some (catId pre (i + 1)))
                  (if xcs.isEmpty then xcs
                   else addNodeIds (catId pre (i + 1) ++ ".") 0 xcs)) = some n := h
              rw [findNode_cons]
              have hcond : (Node.mk xt xp xs' (some (catId pre (i + 1)))
                  (if xcs.isEmpty then xcs
                   else addNodeIds (catId pre (i + 1) ++ ".") 0 xcs)).nodeId
                  = some (addrOf pre i [0]) := rfl
              rw [if_pos hcond]
              exact hx
            | cons r0 r1 =>
              -- the path continues into the head's children
              have hdesc : getAtPath
                  (if xcs.isEmpty then xcs
                   else addNodeIds (catId pre (i + 1) ++ ".") 0 xcs) (r0 :: r1)
                  = some n := h
              cases hxcs : xcs with
              | nil =>
                subst hxcs
                rw [ite_isEmpty_nil] at hdesc
                exact Option.noConfusion hdesc
              | cons c0 cl =>
                subst hxcs
                rw [ite_isEmpty_cons] at hdesc
                have htarget : addrOf pre i (0 :: r0 :: r1)
                    = addrOf (catId pre (i + 1) ++ ".") 0 (r0 :: r1) := rfl
                rw [findNode_cons, htarget]
                have hne : ¬ ((Node.mk xt xp xs' (some (catId pre (i + 1)))
                    (if (c0 :: cl).isEmpty then c0 :: cl
                     else addNodeIds (catId pre (i + 1) ++ ".") 0 (c0 :: cl))).nodeId
                    = some (addrOf (catId pre (i + 1) ++ ".") 0 (r0 :: r1))) := by
                  simp only [Node.nodeId, Option.some.injEq]
                  rw [addrOf_eq _ _ _ (by simp)]
                  exact str_ne_dot_ext _ _
                rw [if_neg hne]
                have hfind := ih (c0 :: cl) hszxcs (catId pre (i + 1) ++ ".") 0
                  (r0 :: r1) n hdesc
                simp only [Node.children, ite_isEmpty_cons]
                rw [hfind]
          | succ j =>
            have htail : getAtPath (addNodeIds pre (i + 1) xs) (j :: rest) = some n := h
            have htarget : addrOf pre i ((j + 1) :: rest)
                = addrOf pre (i + 1) (j :: rest) := addrOf_shift pre i j rest
            have hfind := ih xs hszxs pre (i + 1) (j :: rest) n htail
            rw [findNode_cons, htarget]
            -- the head node's id is the address of path [0], not of (j+1)::rest
            have hne : ¬ ((Node.mk xt xp xs' (some (catId pre (i + 1)))
                (if xcs.isEmpty then xcs
                 else addNodeIds (catId pre (i + 1) ++ ".") 0 xcs)).nodeId
                = some (addrOf pre (i + 1) (j :: rest))) := by
              simp only [Node.nodeId, Option.some.injEq]
              intro heq
              have h0 : addrOf pre i [0] = addrOf pre i ((j + 1) :: rest) := by
                rw [htarget]
                exact heq
              have := addrOf_inj pre i (by simp) (by simp) h0
              simp at this
            rw [if_neg hne]
            -- the head node's subtree contains only ids extending the head id
            have hmiss : findNode (addrOf pre (i + 1) (j :: rest))
                ((Node.mk xt xp xs' (some (catId pre (i + 1)))
                  (if xcs.isEmpty then xcs
                   else addNodeIds (catId pre (i + 1) ++ ".") 0 xcs)).children)
                = none := by
              simp only [Node.children]
              cases hxcs : xcs with
              | nil =>
                rw [ite_isEmpty_nil]
                exact findNode_nil _
              | cons c0 cl =>
                rw [ite_isEmpty_cons]
                cases hf : findNode (addrOf pre (i + 1) (j :: rest))
                    (addNodeIds (catId pre (i + 1) ++ ".") 0 (c0 :: cl)) with
                | none => rfl
                | some r =>
                  obtain ⟨q, hq, hget, hid2⟩ := findNode_sound
                    (sizeOf (addNodeIds (catId pre (i + 1) ++ ".") 0 (c0 :: cl)))
                    _ (le_refl _) _ _ hf
                  have hid3 := (getAtPath_assigned (sizeOf (c0 :: cl)) (c0 :: cl)
                    (le_refl _) _ _ q r hget).1
                  rw [hid2] at hid3
                  have heq := Option.some.inj hid3
                  cases q with
                  | nil => exact absurd rfl hq
                  | cons q0 qr =>
                    have h1 : addrOf pre i (0 :: q0 :: qr)
                        = addrOf pre i ((j + 1) :: rest) := by
                      have h2 : addrOf pre i (0 :: q0 :: qr)
                          = addrOf (catId pre (i + 1) ++ ".") 0 (q0 :: qr) := rfl
                      rw [h2, ← heq, ← htarget]
                    have h3 := addrOf_inj pre i (by simp) (by simp) h1
                    simp at h3
            rw [hmiss]
            exact hfind

/-- Re-assigning ids to an already-assigned tree changes nothing: the ids are
computed from positions alone and overwritten in place. -/
theorem addNodeIds_idem :
    ∀ (N : Nat) (l : List Node), sizeOf l ≤ N → ∀ (pre : String) (i : Nat),
      addNodeIds pre i (addNodeIds pre i l) = addNodeIds pre i l := by
  intro N
  induction N with
  | zero =>
    intro l hl pre i
    cases l with
    | nil => rw [addNodeIds_nil, addNodeIds_nil]
    | cons x rest =>
      simp only [List.cons.sizeOf_spec] at hl
      omega
  | succ N ih =>
    intro l hl pre i
    cases l with
    | nil => rw [addNodeIds_nil, addNodeIds_nil]
    | cons x xs =>
      cases x with
      | mk t p s oid cs =>
        have hszxs : sizeOf xs ≤ N := by
          simp only [List.cons.sizeOf_spec] at hl
          omega
        have hszcs : sizeOf cs ≤ N := by
          simp only [List.cons.sizeOf_spec, Node.mk.sizeOf_spec] at hl
          omega
        rw [addNodeIds_cons, addNodeIds_cons]
        rw [ih xs hszxs pre (i + 1)]
        cases hcs : cs with
        | nil =>
          subst hcs
          rw [ite_isEmpty_nil, ite_isEmpty_nil]
        | cons c0 cl =>
          subst hcs
          rw [ite_isEmpty_cons]
          have hne : (addNodeIds (catId pre (i + 1) ++ ".") 0 (c0 :: cl)).isEmpty
              = false := by
            rw [addNodeIds_isEmpty]
            simp
          rw [hne, if_neg (show ¬ (false = true) by simp)]
          rw [ih (c0 :: cl) hszcs (catId pre (i + 1) ++ ".") 0]

/-! ### Page-window lemmas -/

theorem windowIndices_bounds (len : Nat) (s e : Int) :
    ∀ i ∈ windowIndices len s e, i < len := by
  intro i hi
  rw [windowIndices] at hi
  obtain ⟨d, hd, rfl⟩ := List.mem_range'.mp hi
  omega

theorem pageLines_range' :
    ∀ (n a : Nat) (l : List String), a + n ≤ l.length →
      pageLines l (List.range' a n) =
        some ((List.range' a n).filterMap (goodLine l)) := by
  intro n
  induction n with
  | zero => intro a l _; rfl
  | succ n ih =>
    intro a l h
    rw [List.range'_succ]
    rw [pageLines]
    cases hga : l.get? a with
    | none =>
      rw [List.get?_eq_none] at hga
      omega
    | some t =>
      rw [ih (a + 1) l (by omega)]
      by_cases hst : pyStripTruthy t
      · rw [List.filterMap_cons_some
          (show goodLine l a = some (fmtPage a t) by
            rw [goodLine, hga]
            simp [hst])]
        simp [hst]
      · rw [List.filterMap_cons_none
          (show goodLine l a = none by
            rw [goodLine, hga]
            simp [hst])]
        simp [hst]

theorem excerptLines_empty {lo hi : Int} (hlh : hi < lo) :
    ∀ (l : List String) (k : Nat), excerptLines lo hi k l = [] := by
  intro l
  induction l with
  | nil => intro k; rfl
  | cons t rest ih =>
    intro k
    rw [excerptLines]
    rw [if_neg (show ¬ (lo ≤ (k : Int) ∧ (k : Int) ≤ hi ∧ pyStripTruthy t = true) by
      rintro ⟨h1, h2, -⟩
      omega)]
    rw [ih (k + 1)]
    rfl

theorem excerptLines_eq :
    ∀ (m : List String) (lo hi : Int) (l : List String) (k : Nat),
      (∀ d, m.get? d = l.get? (k + d)) →
      excerptLines lo hi k m =
        (List.range' k m.length).filterMap
          (fun (i : Nat) =>
            if lo ≤ (i : Int) ∧ (i : Int) ≤ hi then goodLine l i else none) := by
  intro m
  induction m with
  | nil => intro lo hi l k _; rfl
  | cons t rest ih =>
    intro lo hi l k h
    have h0 : l.get? k = some t := by
      have := h 0
      simpa using this.symm
    rw [excerptLines]
    have hlen : (t :: rest).length = rest.length + 1 := rfl
    rw [hlen, List.range'_succ]
    have hshift : ∀ d, rest.get? d = l.get? (k + 1 + d) := by
      intro d
      have := h (d + 1)
      have harith : k + (d + 1) = k + 1 + d := by omega
      rw [harith] at this
      exact this
    rw [ih lo hi l (k + 1) hshift, List.filterMap_cons]
    by_cases hin : lo ≤ (k : Int) ∧ (k : Int) ≤ hi
    · by_cases hst : pyStripTruthy t
      · rw [if_pos ⟨hin.1, hin.2, hst⟩]
        simp only [if_pos hin, goodLine, h0, Option.some_bind]
        simp [hst]
      · rw [if_neg (by simp [hst])]
        simp only [if_pos hin, goodLine, h0, Option.some_bind]
        simp [hst]
    · rw [if_neg (by tauto)]
      simp only [if_neg hin]
      simp

/-- The executable page-window extraction computes exactly the
specification-side excerpt, and in particular never fails. -/
theorem getTextFromPages_eq_spec (l : List String) (s e : Int) :
    getTextFromPages l s e = some (excerptSpec l s e) := by
  rw [getTextFromPages, excerptSpec, windowIndices]
  have hlo : (0 : Int) ≤ max 0 s := le_max_left 0 s
  by_cases hwin : min ((l.length : Int) - 1) e < max 0 s
  · have hn : ((min ((l.length : Int) - 1) e) + 1 - max 0 s).toNat = 0 := by omega
    rw [hn]
    rw [excerptLines_empty hwin l 0]
    rfl
  · push_neg at hwin
    have hlen1 : (1 : Int) ≤ (l.length : Int) := by omega
    have hbound : (max 0 s).toNat + ((min ((l.length : Int) - 1) e) + 1 - max 0 s).toNat
        ≤ l.length := by omega
    rw [pageLines_range' _ _ _ hbound]
    rw [excerptLines_eq l _ _ l 0 (fun d => by simp)]
    have hsplit1 : List.range' 0 l.length
        = List.range' 0 (max 0 s).toNat
          ++ List.range' (0 + (max 0 s).toNat) (l.length - (max 0 s).toNat) := by
      rw [List.range'_append_1]
      congr 1
      omega
    have hsplit2 : List.range' (0 + (max 0 s).toNat) (l.length - (max 0 s).toNat)
        = List.range' ((max 0 s).toNat)
            ((min ((l.length : Int) - 1) e + 1 - max 0 s).toNat)
          ++ List.range'
              ((max 0 s).toNat + (min ((l.length : Int) - 1) e + 1 - max 0 s).toNat)
              (l.length - (max 0 s).toNat
                - (min ((l.length : Int) - 1) e + 1 - max 0 s).toNat) := by
      rw [List.range'_append_1]
      congr 1
      · omega
      · omega
    rw [hsplit1, hsplit2, List.filterMap_append, List.filterMap_append]
    have hpre : (List.range' 0 (max 0 s).toNat).filterMap
        (fun (i : Nat) =>
          if max 0 s ≤ (i : Int) ∧ (i : Int) ≤ min ((l.length : Int) - 1) e
          then goodLine l i else none) = [] := by
      rw [List.filterMap_eq_nil_iff]
      intro i hi
      obtain ⟨d, hd, rfl⟩ := List.mem_range'.mp hi
      rw [if_neg (by omega)]
    have hpost : (List.range'
        ((max 0 s).toNat + (min ((l.length : Int) - 1) e + 1 - max 0 s).toNat)
        (l.length - (max 0 s).toNat
          - (min ((l.length : Int) - 1) e + 1 - max 0 s).toNat)).filterMap
        (fun (i : Nat) =>
          if max 0 s ≤ (i : Int) ∧ (i : Int) ≤ min ((l.length : Int) - 1) e
          then goodLine l i else none) = [] := by
      rw [List.filterMap_eq_nil_iff]
      intro i hi
      obtain ⟨d, hd, rfl⟩ := List.mem_range'.mp hi
      rw [if_neg (by omega)]
    have hmid : (List.range' ((max 0 s).toNat)
        ((min ((l.length : Int) - 1) e + 1 - max 0 s).toNat)).filterMap
        (fun (i : Nat) =>
          if max 0 s ≤ (i : Int) ∧ (i : Int) ≤ min ((l.length : Int) - 1) e
          then goodLine l i else none)
        = (List.range' ((max 0 s).toNat)
            ((min ((l.length : Int) - 1) e + 1 - max 0 s).toNat)).filterMap
            (goodLine l) := by
      apply List.filterMap_congr
      intro i hi
      obtain ⟨d, hd, rfl⟩ := List.mem_range'.mp hi
      rw [if_pos (by constructor <;> omega)]
    rw [hpre, hpost, hmid]
    simp

/-! ### Router, builder and navigator lemmas -/

/-- When the validation loop keeps nothing, the `raise ValueError` lands in
the outer `except` handler and the router returns the first `top_k` input
documents unranked. -/
theorem route_empty_validation (documents : List String) (topK : Nat)
    (selectedDocs : List String) (h : validateDocs selectedDocs documents = []) :
    route documents topK selectedDocs = documents.take topK := by
  rw [route, h]
  rfl

/-- A terminal model-call failure propagates out of `build_tree` unhandled
whenever the cache cannot serve the request. -/
theorem buildTree_exn (cache : Cache) (path : String) (force : Bool)
    (exJson loads : String → ParseOut) (h : force = true ∨ cache path = none) :
    buildTree cache path force .exn exJson loads = .error () := by
  rcases h with hf | hc
  · subst hf
    cases hc : cache path <;> simp [buildTree, hc]
  · cases force <;> simp [buildTree, hc]

/-- Whenever the model call returned text, `build_tree` succeeds, returning
the parsed-or-fallback tree with ids assigned, and writes exactly that tree
to the cache path. -/
theorem buildTree_ok (cache : Cache) (path : String) (force : Bool) (r : String)
    (exJson loads : String → ParseOut) (h : force = true ∨ cache path = none) :
    buildTree cache path force (.ok r) exJson loads
      = .ok ((parseToc (exJson r) (loads r)).map (addNodeIds "" 0),
        fun p => if p = path
          then some ((parseToc (exJson r) (loads r)).map (addNodeIds "" 0))
          else cache p) := by
  rcases h with hf | hc
  · subst hf
    cases hc : cache path <;> simp [buildTree, hc]
  · cases force <;> simp [buildTree, hc]

/-- A totally failed parse produces the synthetic fallback structure. -/
theorem parseToc_total_failure (exOut ldOut : ParseOut)
    (h : exOut = .raised ∨ (∃ v, exOut = .ret v ∧ pyFalsy v = true ∧ ldOut = .raised)) :
    parseToc exOut ldOut = some fallbackToc := by
  rcases h with hf | ⟨v, hv, hfal, hld⟩
  · subst hf
    rfl
  · subst hv
    subst hld
    rw [parseToc, if_pos hfal]

/-- The result-collection loop of `search` never fails and is exactly a
`filterMap` of resolve-then-extract over the parsed entries. -/
theorem searchLoop_eq (tree : List Node) (pageList : List String) (src : String) :
    ∀ entries : List NavEntry,
      searchLoop tree pageList src entries
        = some (entries.filterMap (fun e =>
            (findNode (e.nodeId.getD "1") tree).map
              (fun node => mkResultSpec pageList src e node))) := by
  intro entries
  induction entries with
  | nil => rfl
  | cons e rest ih =>
    rw [searchLoop]
    cases hf : findNode (e.nodeId.getD "1") tree with
    | none =>
      rw [ih, List.filterMap_cons]
      simp [hf]
    | some node =>
      simp only []
      rw [getTextFromPages_eq_spec, ih, List.filterMap_cons, hf]
      simp [mkResultSpec]

/-- With a single-node tree and pairwise-distinct (defaulted) entry ids, at
most one parsed entry resolves. -/
theorem filterMap_single_key_len (g : NavEntry → String)
    (F : NavEntry → Option SearchResult) (hF : ∀ e, (F e).isSome → g e = "1") :
    ∀ es : List NavEntry, (es.map g).Nodup → (es.filterMap F).length ≤ 1 := by
  intro es
  induction es with
  | nil => intro _; simp
  | cons e rest ih =>
    intro hnd
    rw [List.map_cons, List.nodup_cons] at hnd
    rw [List.filterMap_cons]
    cases hFe : F e with
    | none => exact ih hnd.2
    | some r =>
      have hg : g e = "1" := hF e (by rw [hFe]; rfl)
      have hrest : rest.filterMap F = [] := by
        rw [List.filterMap_eq_nil_iff]
        intro e' he'
        cases hFe' : F e' with
        | none => rfl
        | some r' =>
          have hg' : g e' = "1" := hF e' (by rw [hFe']; rfl)
          have hmem : g e ∈ rest.map g := by
            rw [hg, ← hg']
            exact List.mem_map_of_mem g he'
          exact absurd hmem hnd.1
      rw [hrest]
      simp

/-! ## Claim theorems -/

/-- C1: contrary to the claim, when the router's validation keeps zero usable
filenames the code does NOT fall back to the keyword-overlap ranking: the
`raise ValueError` placed before the (unreachable) keyword-fallback lines
lands in the outer `except`, which returns the first `top_k` input documents.
At query "투명성 가이드라인" with candidates `["B_안전성.pdf", "A_투명성.pdf"]`
and `top_k = 1`, the code returns `["B_안전성.pdf"]` while the claimed keyword
ranking gives `["A_투명성.pdf"]`; only for the candidate order used in the
spec's example do the two coincide. -/
theorem claim_C1_router_keyword_fallback_unreachable :
    validateDocs ["garbage"] ["B_안전성.pdf", "A_투명성.pdf"] = []
    ∧ route ["B_안전성.pdf", "A_투명성.pdf"] 1 ["garbage"] = ["B_안전성.pdf"]
    ∧ keywordFallback "투명성 가이드라인" ["B_안전성.pdf", "A_투명성.pdf"] 1
      = ["A_투명성.pdf"]
    ∧ ["B_안전성.pdf"] ≠ ["A_투명성.pdf"]
    ∧ route ["A_투명성.pdf", "B_안전성.pdf"] 1 ["garbage"] = ["A_투명성.pdf"] :=
  ⟨rfl, rfl, rfl, by decide, rfl⟩

/-- C2 (counterexample to the claim as stated): with an empty cache and a
terminal model-call failure, `build_tree` evaluates to the propagated
exception, not to a one-root synthetic tree. -/
theorem claim_C2_counterexample :
    buildTree (fun _ => none) "hello.pdf" false GenOut.exn
      (fun _ => .raised) (fun _ => .raised) = Except.error () := rfl

/-- C2 (amended): whenever the cache cannot serve the request (forced rebuild
or no cached entry), a terminal model-call failure propagates out of
`build_tree` unhandled; the one-root synthetic fallback applies only to parse
failures of a successfully returned response. -/
theorem claim_C2_terminal_failure_propagates (cache : Cache) (path : String)
    (force : Bool) (exJson loads : String → ParseOut)
    (h : force = true ∨ cache path = none) :
    buildTree cache path force GenOut.exn exJson loads = Except.error () :=
  buildTree_exn cache path force exJson loads h

theorem claim_C2_witness :
    buildTree (fun _ => none) "hello.pdf" true GenOut.exn
      (fun _ => .raised) (fun _ => .raised) = Except.error () :=
  claim_C2_terminal_failure_propagates (fun _ => none) "hello.pdf" true
    (fun _ => .raised) (fun _ => .raised) (Or.inl rfl)

/-- C3: a forced rebuild whose model response fails to parse overwrites the
existing valid cache entry in place with the synthetic fallback tree — there
is no temporary-file indirection and no validation gate before persisting, so
the valid entry does not survive. -/
theorem claim_C3_failed_parse_overwrites_valid_cache :
    (match buildTree (fun p => if p = "t.json"
        then some (some [Node.mk "Intro" (some 2) none (some "1") []]) else none)
        "t.json" true (GenOut.ok "garbage") (fun _ => .raised) (fun _ => .raised) with
     | .ok (t, c') =>
         t = some [Node.mk "Document" (some 1) none (some "1") []]
         ∧ c' "t.json" = some (some [Node.mk "Document" (some 1) none (some "1") []])
     | .error _ => False)
    ∧ (Node.mk "Document" (some 1) none (some "1") ([] : List Node))
        ≠ Node.mk "Intro" (some 2) none (some "1") [] :=
  ⟨⟨rfl, rfl⟩, by
    intro h
    injection h with h1 _ _ _ _
    exact absurd h1 (by decide)⟩

/-- C4: when the model call returned text whose parse totally fails
(`extract_json` raised, or returned a falsy value and the strict
`json.loads` raised), `build_tree` returns exactly the one-root synthetic
tree `{title: "Document", page: 1}` (with its id assigned); and for any parse
outcome at all it succeeds with some tree. -/
theorem claim_C4_parse_failure_gives_synthetic_root (cache : Cache) (path : String)
    (force : Bool) (r : String) (exJson loads : String → ParseOut)
    (hmiss : force = true ∨ cache path = none) :
    ((exJson r = .raised
        ∨ (∃ v, exJson r = .ret v ∧ pyFalsy v = true ∧ loads r = .raised)) →
      ∃ c', buildTree cache path force (GenOut.ok r) exJson loads
        = .ok (some [Node.mk "Document" (some 1) none (some "1") []], c'))
    ∧ (∃ t c', buildTree cache path force (GenOut.ok r) exJson loads = .ok (t, c')) := by
  constructor
  · intro hfail
    have hb := buildTree_ok cache path force r exJson loads hmiss
    rw [parseToc_total_failure _ _ hfail] at hb
    exact ⟨_, hb⟩
  · exact ⟨_, _, buildTree_ok cache path force r exJson loads hmiss⟩

theorem claim_C4_witness :
    ∃ c', buildTree (fun _ => none) "d.pdf" false (GenOut.ok "not json")
        (fun _ => .raised) (fun _ => .raised)
      = .ok (some [Node.mk "Document" (some 1) none (some "1") []], c') :=
  (claim_C4_parse_failure_gives_synthetic_root (fun _ => none) "d.pdf" false
    "not json" (fun _ => .raised) (fun _ => .raised) (Or.inr rfl)).1 (Or.inl rfl)

/-- C5: the builder performs no validation of page values. A parsed node with
the non-positive page `0` is stored unchanged (only its id is added), and in
`search` the resulting start index `page - 1 = -1` is silently clamped, so
the malformed page flows into page arithmetic and yields page 1's window
instead of being coerced or rejected. -/
theorem claim_C5_page_zero_propagates_unvalidated :
    (match buildTree (fun _ => none) "law.pdf" false (GenOut.ok "resp")
        (fun _ => ParseOut.ret (some [Node.mk "Intro" (some 0) none none []]))
        (fun _ => ParseOut.raised) with
     | .ok (t, _) => t = some [Node.mk "Intro" (some 0) none (some "1") []]
     | .error _ => False)
    ∧ (searchCore [Node.mk "Intro" (some 0) none (some "1") []] [⟨some "1", none⟩] 3
        ["Hello"] "law.pdf").map (List.map SearchResult.page) = some [0]
    ∧ getTextFromPages ["Hello"] ((0 : Int) - 1) (min ((0 : Int) - 1 + 2) ((1 : Int) - 1))
      = some "--- Page 1 ---\nHello" :=
  ⟨rfl, rfl, rfl⟩

/-- C6: `_add_node_ids` gives the `i`-th root node (0-based `i`) the address
`str(i+1)`, gives the `j`-th child of any reachable node its parent's address
plus a dot plus `str(j+1)`, and is idempotent. -/
theorem claim_C6_addressing_scheme_and_idempotence :
    ∀ t : List Node,
      (∀ i n, (addNodeIds "" 0 t).get? i = some n → n.nodeId = some (Nat.repr (i + 1)))
      ∧ (∀ p parent j c, getAtPath (addNodeIds "" 0 t) p = some parent →
          parent.children.get? j = some c →
          ∃ a, parent.nodeId = some a ∧ c.nodeId = some (a ++ "." ++ Nat.repr (j + 1)))
      ∧ addNodeIds "" 0 (addNodeIds "" 0 t) = addNodeIds "" 0 t := by
  intro t
  refine ⟨?_, ?_, addNodeIds_idem (sizeOf t) t (le_refl _) "" 0⟩
  · intro i n h
    rw [addNodeIds_get?] at h
    cases hg : t.get? i with
    | none =>
      rw [hg] at h
      exact Option.noConfusion h
    | some m =>
      rw [hg] at h
      simp only [Option.map_some'] at h
      have hn := Option.some.inj h
      rw [← hn]
      simp only [Node.nodeId]
      rw [catId, if_pos rfl]
      have harith : 0 + i + 1 = i + 1 := by omega
      rw [harith]
  · intro p parent j c hp hc
    have hassigned := getAtPath_assigned (sizeOf t) t (le_refl _) "" 0 p parent hp
    exact ⟨addrOf "" 0 p, hassigned.1, hassigned.2 j c hc⟩

theorem claim_C6_witness :
    (Node.mk "A" none none (some "1") [Node.mk "B" none none (some "1.1") []]).nodeId
      = some (Nat.repr 1)
    ∧ (∃ a, (Node.mk "A" none none (some "1")
          [Node.mk "B" none none (some "1.1") []]).nodeId = some a
        ∧ (Node.mk "B" none none (some "1.1") []).nodeId
          = some (a ++ "." ++ Nat.repr 1))
    ∧ addNodeIds "" 0 (addNodeIds "" 0
        [Node.mk "A" none none none [Node.mk "B" none none none []],
         Node.mk "C" none none none []])
      = addNodeIds "" 0
        [Node.mk "A" none none none [Node.mk "B" none none none []],
         Node.mk "C" none none none []] :=
  ⟨(claim_C6_addressing_scheme_and_idempotence
      [Node.mk "A" none none none [Node.mk "B" none none none []],
       Node.mk "C" none none none []]).1 0
      (Node.mk "A" none none (some "1") [Node.mk "B" none none (some "1.1") []]) rfl,
   (claim_C6_addressing_scheme_and_idempotence
      [Node.mk "A" none none none [Node.mk "B" none none none []],
       Node.mk "C" none none none []]).2.1 [0]
      (Node.mk "A" none none (some "1") [Node.mk "B" none none (some "1.1") []]) 0
      (Node.mk "B" none none (some "1.1") []) rfl rfl,
   (claim_C6_addressing_scheme_and_idempotence
      [Node.mk "A" none none none [Node.mk "B" none none none []],
       Node.mk "C" none none none []]).2.2⟩

/-- C7: in a tree with addresses assigned, looking up any node's own address
with `_find_node` (a depth-first search on exact address equality) returns
exactly that node. -/
theorem claim_C7_find_by_address_roundtrip :
    ∀ (t : List Node) (p : List Nat) (n : Node),
      getAtPath (addNodeIds "" 0 t) p = some n →
      ∃ a, n.nodeId = some a ∧ findNode a (addNodeIds "" 0 t) = some n := by
  intro t p n h
  exact ⟨addrOf "" 0 p,
    (getAtPath_assigned (sizeOf t) t (le_refl _) "" 0 p n h).1,
    findNode_assigned (sizeOf t) t (le_refl _) "" 0 p n h⟩

theorem claim_C7_witness :
    ∃ a, (Node.mk "B" none none (some "1.1") []).nodeId = some a
      ∧ findNode a (addNodeIds "" 0
          [Node.mk "A" none none none [Node.mk "B" none none none []],
           Node.mk "C" none none none []])
        = some (Node.mk "B" none none (some "1.1") []) :=
  claim_C7_find_by_address_roundtrip
    [Node.mk "A" none none none [Node.mk "B" none none none []],
     Node.mk "C" none none none []]
    [0, 0] (Node.mk "B" none none (some "1.1") []) rfl

/-- C8: the page-window loop only ever touches indices inside
`[0, total_pages-1]` (out-of-range requests are clamped, never an error), and
a window starting past the last page yields the empty string. -/
theorem claim_C8_page_window_safe :
    ∀ (pages : List String) (s e : Int),
      (∀ i ∈ windowIndices pages.length s e, i < pages.length)
      ∧ (getTextFromPages pages s e).isSome = true
      ∧ ((pages.length : Int) - 1 < s → getTextFromPages pages s e = some "") := by
  intro pages s e
  refine ⟨windowIndices_bounds _ _ _, ?_, ?_⟩
  · rw [getTextFromPages_eq_spec]
    rfl
  · intro hs
    have h0 : ((min ((pages.length : Int) - 1) e) + 1 - max 0 s).toNat = 0 := by
      omega
    have hw : windowIndices pages.length s e = [] := by
      rw [windowIndices]
      simp only [h0]
      rfl
    rw [getTextFromPages, hw]
    rfl

theorem claim_C8_witness :
    (0 : Nat) < 1 ∧ getTextFromPages ["Hello"] 5 9 = some "" :=
  ⟨(claim_C8_page_window_safe ["Hello"] 0 5).1 0 (by decide),
   (claim_C8_page_window_safe ["Hello"] 5 9).2.2 (by decide)⟩

/-- C9 (counterexample to the claim as stated): a parsed navigation response
that repeats the single node's address resolves twice, so a tree with one
node at address "1" and `top_k = 3` returns 2 results — more than the 1 the
claim allows. -/
theorem claim_C9_counterexample :
    (searchCore [Node.mk "Doc" (some 1) none (some "1") []]
      [⟨some "1", none⟩, ⟨some "1", none⟩] 3 ["Hello"] "doc.pdf").map List.length
      = some 2
    ∧ ¬ (2 : Nat) ≤ 1 := by
  constructor
  · rfl
  · decide

/-- C9 (amended): `search` processes at most `top_k` parsed entries, skips
(without failing) every entry whose (defaulted) address does not resolve, and
returns the surviving results in the model's order — it is exactly a
`filterMap` of resolve-then-extract over the first `top_k` entries; at most
`top_k` results come back, and for a tree with a single node at address "1"
at most 1 result comes back provided the parsed entries' defaulted addresses
are pairwise distinct. -/
theorem claim_C9_navigation_processing :
    ∀ (tree : List Node) (nav : List NavEntry) (topK : Nat)
      (pages : List String) (src : String),
      searchCore tree nav topK pages src
        = some ((nav.take topK).filterMap (fun e =>
            (findNode (e.nodeId.getD "1") tree).map (mkResultSpec pages src e)))
      ∧ (∀ rs, searchCore tree nav topK pages src = some rs → rs.length ≤ topK)
      ∧ (∀ n0, tree = [n0] → n0.nodeId = some "1" → n0.children = [] →
          ((nav.take topK).map (fun e => e.nodeId.getD "1")).Nodup →
          ∀ rs, searchCore tree nav topK pages src = some rs → rs.length ≤ 1) := by
  intro tree nav topK pages src
  have hmain : searchCore tree nav topK pages src
      = some ((nav.take topK).filterMap (fun e =>
          (findNode (e.nodeId.getD "1") tree).map (mkResultSpec pages src e))) := by
    rw [searchCore, searchLoop_eq]
  refine ⟨hmain, ?_, ?_⟩
  · intro rs hrs
    rw [hmain] at hrs
    have hrs' := Option.some.inj hrs
    rw [← hrs']
    exact le_trans (List.length_filterMap_le _ _)
      (by rw [List.length_take]; exact min_le_left _ _)
  · intro n0 htree hid hch hnd rs hrs
    rw [hmain] at hrs
    have hrs' := Option.some.inj hrs
    rw [← hrs']
    subst htree
    apply filterMap_single_key_len (fun e => e.nodeId.getD "1") _ ?_ _ hnd
    intro e hesome
    cases n0 with
    | mk a b c d ch =>
      simp only [Node.nodeId] at hid
      simp only [Node.children] at hch
      subst hid
      subst hch
      by_contra hne
      rw [findNode_cons] at hesome
      have hcond : ¬ ((Node.mk a b c (some "1") ([] : List Node)).nodeId
          = some (e.nodeId.getD "1")) := by
        simp only [Node.nodeId, Option.some.injEq]
        intro heq
        exact hne heq.symm
      rw [if_neg hcond] at hesome
      simp [Node.children, findNode_nil] at hesome

theorem claim_C9_witness :
    (searchCore [Node.mk "Doc" (some 1) none (some "1") []] [⟨some "1", none⟩] 3
      ["Hello"] "d.pdf"
      = some [mkResultSpec ["Hello"] "d.pdf" ⟨some "1", none⟩
          (Node.mk "Doc" (some 1) none (some "1") [])])
    ∧ [mkResultSpec ["Hello"] "d.pdf" (⟨some "1", none⟩ : NavEntry)
        (Node.mk "Doc" (some 1) none (some "1") [])].length ≤ 1 := by
  have hsc : searchCore [Node.mk "Doc" (some 1) none (some "1") []]
      [⟨some "1", none⟩] 3 ["Hello"] "d.pdf"
      = some [mkResultSpec ["Hello"] "d.pdf" ⟨some "1", none⟩
          (Node.mk "Doc" (some 1) none (some "1") [])] := by
    rw [(claim_C9_navigation_processing [Node.mk "Doc" (some 1) none (some "1") []]
      [⟨some "1", none⟩] 3 ["Hello"] "d.pdf").1]
    rfl
  exact ⟨hsc,
    (claim_C9_navigation_processing [Node.mk "Doc" (some 1) none (some "1") []]
      [⟨some "1", none⟩] 3 ["Hello"] "d.pdf").2.2
      (Node.mk "Doc" (some 1) none (some "1") []) rfl rfl rfl (by decide) _ hsc⟩

/-- C10: for every page list and window, the extracted text consists exactly
of the in-range pages whose text is not whitespace-only, each prefixed with
its 1-based `--- Page N ---` marker, joined in ascending page order with
blank-line separators (whitespace-only pages are omitted, markers included). -/
theorem claim_C10_excerpt_content (pages : List String) (s e : Int) :
    getTextFromPages pages s e = some (excerptSpec pages s e) :=
  getTextFromPages_eq_spec pages s e

end PageIndex
